import Mathlib

set_option maxRecDepth 10000

/-!
Shallow embedding of the producer/consumer double-buffer exchange and the
per-frame DSP pipeline from `src/fw/60led_srl/60led_srl.ino` (the
`fft_test` variant shares the identical buffer-exchange code).

Modelling conventions:
* The two fixed `short audio_buffer1/2[fft_size]` arrays together with their
  fill counters `buffer1_size`/`buffer2_size` are modelled by the *filled
  prefix* of each buffer as a `List Int`; the fill counter is the length of
  that list.  Samples past the fill counter are never observed by either
  context, so the stale tail of the C arrays is not represented.
* `write_size == &buffer1_size` (resp. `read_size == &buffer1_size`) is the
  Boolean `writeIsBuf1` (resp. `readIsBuf1`); the paired data pointers
  `write_buffer`/`read_buffer` always move in lockstep with them in the
  source, so one Boolean per role suffices.
* `int`/`int32_t` arithmetic is modelled on `Int` (with explicit wrap where
  a narrowing store can overflow), `float` arithmetic on `ℚ` with the exact
  decimal values of the literals.
-/

namespace BSRL

/-- `fft_size` from the source (the spec's BLOCK_SIZE): number of 16-bit
samples in one audio block. -/
def fft_size : Nat := 1024

/-- State of the double-buffer exchange: the filled prefixes of
`audio_buffer1`/`audio_buffer2` and the two role selectors. -/
structure ExchangeState where
  buf1 : List Int
  buf2 : List Int
  writeIsBuf1 : Bool
  readIsBuf1 : Bool
deriving DecidableEq

/-- The buffer selected by a role Boolean (`true` = `audio_buffer1`). -/
def bufOf (s : ExchangeState) (b : Bool) : List Int :=
  if b then s.buf1 else s.buf2

/-- Replace the buffer selected by a role Boolean. -/
def setBuf (s : ExchangeState) (b : Bool) (v : List Int) : ExchangeState :=
  if b then { s with buf1 := v } else { s with buf2 := v }

/-- The fill counter of the selected buffer (`buffer1_size`/`buffer2_size`). -/
def fillCount (s : ExchangeState) (b : Bool) : Nat :=
  (bufOf s b).length

/-- The read/advance phase of `onPDMdata` (source lines 224-232): compute
`available_space_samples = fft_size - *write_size`, read
`min(available_space_samples, samples_available)` samples into the write
buffer at offset `*write_size`, and advance `*write_size` by that amount.
`data` is the sequence of samples the PDM peripheral currently holds. -/
def pdmRead (s : ExchangeState) (data : List Int) : ExchangeState :=
  let wbuf := bufOf s s.writeIsBuf1
  let available_space_samples := fft_size - wbuf.length
  let samples_to_read := min available_space_samples data.length
  setBuf s s.writeIsBuf1 (wbuf ++ data.take samples_to_read)

/-- The completion phase of `onPDMdata` (source lines 234-245): when the
write buffer just reached `fft_size`, look at the other buffer; if its fill
counter is nonzero the freshly completed block is discarded (`*write_size =
0`, same buffer kept as write target), otherwise the write role swaps to the
other buffer. -/
def pdmSwitch (s : ExchangeState) : ExchangeState :=
  if fillCount s s.writeIsBuf1 = fft_size then
    if fillCount s (!s.writeIsBuf1) ≠ 0 then
      setBuf s s.writeIsBuf1 []
    else
      { s with writeIsBuf1 := !s.writeIsBuf1 }
  else s

/-- One invocation of the ISR callback `onPDMdata`. -/
def onPDMdata (s : ExchangeState) (data : List Int) : ExchangeState :=
  pdmSwitch (pdmRead s data)

/-- One invocation of the consumer `loop` (buffer-exchange effects only):
if the read buffer is not full, return immediately; otherwise observe its
contents, reset its fill counter to 0 and move the read role to the other
buffer (source lines 141-144 and 210-215).  The observed block (the input to
the DSP pipeline) is returned alongside the new state. -/
def loopState (s : ExchangeState) : ExchangeState :=
  if (bufOf s s.readIsBuf1).length ≠ fft_size then s
  else { setBuf s s.readIsBuf1 [] with readIsBuf1 := !s.readIsBuf1 }

/-- The block the consumer observes on one poll (`none` when the read buffer
is not yet full). -/
def loopObs (s : ExchangeState) : Option (List Int) :=
  if (bufOf s s.readIsBuf1).length ≠ fft_size then none
  else some (bufOf s s.readIsBuf1)

def loopStep (s : ExchangeState) : ExchangeState × Option (List Int) :=
  (loopState s, loopObs s)

/-- A step of the whole system: either an ISR invocation delivering `data`,
or one poll of the consumer loop. -/
inductive XStep where
  | isr (data : List Int)
  | poll
deriving DecidableEq

/-- Apply one step to the exchange state. -/
def applyStep (s : ExchangeState) (st : XStep) : ExchangeState :=
  match st with
  | .isr d => onPDMdata s d
  | .poll => (loopStep s).1

/-- Run a sequence of steps. -/
def run (s : ExchangeState) (steps : List XStep) : ExchangeState :=
  steps.foldl applyStep s

/-- Initial state: both fill counters 0, both roles on `audio_buffer1`. -/
def init : ExchangeState := ⟨[], [], true, true⟩

/-- Exchange invariant: the write buffer is never full at a quiescent point,
and the other buffer is either empty or full. -/
def ExchangeInv (s : ExchangeState) : Prop :=
  fillCount s s.writeIsBuf1 < fft_size ∧
  (fillCount s (!s.writeIsBuf1) = 0 ∨ fillCount s (!s.writeIsBuf1) = fft_size)

/-- `NUMPIXELS` from the source: number of display elements / bands. -/
def NUMPIXELS : Nat := 60

/-- The `frequency_bins_count` calibration table (source lines 76-83): how
many FFT bins correspond to each pixel of output. -/
def frequency_bins_count : List Nat :=
  [1, 1, 1, 1, 1, 1, 1, 1, 1, 1,
   1, 1, 1, 1, 1, 1, 1, 1, 1, 1,
   1, 1, 1, 1, 1, 1, 1, 1, 1, 1,
   1, 1, 1, 1, 1, 1, 1, 1, 1, 1,
   2, 2, 2, 2, 2, 2, 2, 2, 2, 3,
   25, 26, 27, 28, 29, 30, 32, 33, 34, 130]

/-- `raw_min_value` (source line 85): fixed noise floor subtracted from each
bin before summation. -/
def raw_min_value : Int := 6

/-- Per-bin contribution `std::max<short>(0, bin - raw_min_value)` (source
line 171).  The values fed to this in the claims below are small, so the
`short` narrowing of the `max` arguments cannot wrap and is modelled as
exact `Int` arithmetic. -/
def binContrib (v : Int) : Int := max 0 (v - raw_min_value)

/-- Raw energy of one band: `span` consecutive spectrum bins starting at
`offset`, accumulated into the float `total` (float addition of small
integer magnitudes is exact, modelled on `ℚ`).  Out-of-range reads return
0. -/
def bandEnergy (spectrum : List Int) (offset span : Nat) : ℚ :=
  ((List.range span).map
    (fun j => (binContrib (spectrum.getD (offset + j) 0) : ℚ))).sum

/-- The band-aggregation loop (source lines 166-172): bands in order, each
consuming its `counts` entry of consecutive bins; `offset` tracks the
running `fft_offset`. -/
def aggregate (spectrum : List Int) (counts : List Nat) (offset : Nat) :
    List ℚ :=
  match counts with
  | [] => []
  | c :: rest => bandEnergy spectrum offset c :: aggregate spectrum rest (offset + c)

/-- `pixel_values` as computed by `loop`: aggregation starts at
`fft_offset = 1` (bin 0, the DC component, is skipped). -/
def pixel_values (spectrum : List Int) : List ℚ :=
  aggregate spectrum frequency_bins_count 1

/-- Two's-complement wrap of an `Int` into the `short` (int16) range, the
effect of a narrowing store on the target. -/
def wrap16 (x : Int) : Int := Int.emod (x + 32768) 65536 - 32768

/-- `RemoveDCBias` (source lines 129-138): sum the block into an `int32_t`
accumulator (modelled exactly; the claim that this cannot overflow is proved
below), divide by `fft_size` with C truncating division, and subtract the
result from every sample in place; the store back into a `short` wraps. -/
def RemoveDCBias (data : List Int) : List Int :=
  let avg := Int.tdiv data.sum (fft_size : Int)
  data.map (fun v => wrap16 (v - avg))

/-- A block of extreme int16 samples used to exhibit int16 wrap in
`RemoveDCBias`. -/
def badBlock : List Int := 32767 :: List.replicate 1023 (-32768)

/-- `min_auto_gain` (source line 98); the float literal `0.005f` is modelled
by its exact decimal value. -/
def min_auto_gain : ℚ := 5 / 1000

/-- The per-frame decay factor `0.997f` (source line 181). -/
def decay_factor : ℚ := 997 / 1000

/-- One frame's auto-gain update for one band (source lines 177-182):
instant attack on `level > gain`, otherwise decay with floor. -/
def gainUpdate (gain level : ℚ) : ℚ :=
  if level > gain then level else max min_auto_gain (gain * decay_factor)

/-- `auto_gain_level[i]` after a sequence of frames with the given raw
energies. -/
def gainIter (gain : ℚ) (levels : List ℚ) : ℚ :=
  levels.foldl gainUpdate gain

/-- The per-frame trace of `auto_gain_level[i]` values (the value after each
frame's update). -/
def gainTrace (gain : ℚ) (levels : List ℚ) : List ℚ :=
  match levels with
  | [] => []
  | l :: rest => gainUpdate gain l :: gainTrace (gainUpdate gain l) rest

/-- The normalized output `level / auto_gain_level[i]` computed after the
gain update (source line 184). -/
def normalized (gain level : ℚ) : ℚ :=
  level / gainUpdate gain level

/-- C truncation toward zero of a rational, the effect of
`static_cast<int>` on a nonneg-or-negative float value. -/
def ratTrunc (q : ℚ) : Int := Int.tdiv q.num (q.den : Int)

/-- The green channel `static_cast<int>(gain_level * 250.0f)` (source line
189), where `gain_level` there is the normalized output. -/
def greenValue (n : ℚ) : Int := ratTrunc (n * 250)

/-- The single-bin spectrum value of the C7 scenario:
`raw_min_value + 10`. -/
def scenario_bin : Int := raw_min_value + 10

theorem bufOf_setBuf_self (s : ExchangeState) (b : Bool) (v : List Int) :
    bufOf (setBuf s b v) b = v := by
  cases b <;> simp [bufOf, setBuf]

theorem bufOf_setBuf_not (s : ExchangeState) (b : Bool) (v : List Int) :
    bufOf (setBuf s b v) (!b) = bufOf s (!b) := by
  cases b <;> simp [bufOf, setBuf]

theorem writeIsBuf1_setBuf (s : ExchangeState) (b : Bool) (v : List Int) :
    (setBuf s b v).writeIsBuf1 = s.writeIsBuf1 := by
  cases b <;> simp [setBuf]

theorem readIsBuf1_setBuf (s : ExchangeState) (b : Bool) (v : List Int) :
    (setBuf s b v).readIsBuf1 = s.readIsBuf1 := by
  cases b <;> simp [setBuf]

theorem pdmRead_writeIsBuf1 (s : ExchangeState) (data : List Int) :
    (pdmRead s data).writeIsBuf1 = s.writeIsBuf1 := by
  simp [pdmRead, writeIsBuf1_setBuf]

theorem pdmRead_readIsBuf1 (s : ExchangeState) (data : List Int) :
    (pdmRead s data).readIsBuf1 = s.readIsBuf1 := by
  simp [pdmRead, readIsBuf1_setBuf]

theorem pdmRead_write_buf (s : ExchangeState) (data : List Int) :
    bufOf (pdmRead s data) s.writeIsBuf1 =
      bufOf s s.writeIsBuf1 ++
        data.take (min (fft_size - fillCount s s.writeIsBuf1) data.length) := by
  simp [pdmRead, fillCount, bufOf_setBuf_self]

theorem pdmRead_other_buf (s : ExchangeState) (data : List Int) :
    bufOf (pdmRead s data) (!s.writeIsBuf1) = bufOf s (!s.writeIsBuf1) := by
  simp [pdmRead, bufOf_setBuf_not]

theorem pdmRead_write_fill (s : ExchangeState) (data : List Int) :
    fillCount (pdmRead s data) s.writeIsBuf1 =
      fillCount s s.writeIsBuf1 +
        min (fft_size - fillCount s s.writeIsBuf1) data.length := by
  rw [fillCount, pdmRead_write_buf, List.length_append, List.length_take]
  simp [fillCount, Nat.min_assoc, Nat.min_comm data.length]

/-- C9: on every ISR invocation with write fill count `w` and `data`
samples available, the producer reads exactly `min (fft_size - w)
data.length` samples into the write buffer starting at offset `w` (i.e. the
filled prefix is extended by exactly that prefix of `data`), leaves the
other buffer untouched, and advances the fill count by exactly that amount,
never past `fft_size`. -/
theorem C9_producer_reads_min (s : ExchangeState) (data : List Int)
    (h : fillCount s s.writeIsBuf1 ≤ fft_size) :
    bufOf (pdmRead s data) s.writeIsBuf1 =
      bufOf s s.writeIsBuf1 ++
        data.take (min (fft_size - fillCount s s.writeIsBuf1) data.length) ∧
    bufOf (pdmRead s data) (!s.writeIsBuf1) = bufOf s (!s.writeIsBuf1) ∧
    (pdmRead s data).writeIsBuf1 = s.writeIsBuf1 ∧
    fillCount (pdmRead s data) s.writeIsBuf1 =
      fillCount s s.writeIsBuf1 +
        min (fft_size - fillCount s s.writeIsBuf1) data.length ∧
    fillCount (pdmRead s data) s.writeIsBuf1 ≤ fft_size := by
  refine ⟨pdmRead_write_buf s data, pdmRead_other_buf s data,
    pdmRead_writeIsBuf1 s data, pdmRead_write_fill s data, ?_⟩
  rw [pdmRead_write_fill]
  omega

/-- Witness for C9 at a concrete state: two samples already in the write
buffer, three arriving. -/
theorem C9_producer_reads_min_witness :
    let s : ExchangeState := ⟨[1, 2], [], true, true⟩
    let data : List Int := [5, 6, 7]
    bufOf (pdmRead s data) s.writeIsBuf1 =
      bufOf s s.writeIsBuf1 ++
        data.take (min (fft_size - fillCount s s.writeIsBuf1) data.length) ∧
    bufOf (pdmRead s data) (!s.writeIsBuf1) = bufOf s (!s.writeIsBuf1) ∧
    (pdmRead s data).writeIsBuf1 = s.writeIsBuf1 ∧
    fillCount (pdmRead s data) s.writeIsBuf1 =
      fillCount s s.writeIsBuf1 +
        min (fft_size - fillCount s s.writeIsBuf1) data.length ∧
    fillCount (pdmRead s data) s.writeIsBuf1 ≤ fft_size :=
  C9_producer_reads_min ⟨[1, 2], [], true, true⟩ [5, 6, 7] (by decide)

/-- C1: whenever an ISR invocation completes the write block (fill count
reaches `fft_size`), the completion policy is: if the other buffer's fill
count is nonzero the new block is discarded (write fill count reset to 0,
write role unchanged, other buffer untouched); if the other buffer is empty
the write role swaps to the other buffer and the completed block stays full. -/
theorem C1_overrun_discard_else_swap (s : ExchangeState) (data : List Int)
    (hcomplete : fillCount s s.writeIsBuf1 +
        min (fft_size - fillCount s s.writeIsBuf1) data.length = fft_size) :
    (fillCount s (!s.writeIsBuf1) ≠ 0 →
        (onPDMdata s data).writeIsBuf1 = s.writeIsBuf1 ∧
        fillCount (onPDMdata s data) s.writeIsBuf1 = 0 ∧
        bufOf (onPDMdata s data) (!s.writeIsBuf1) = bufOf s (!s.writeIsBuf1)) ∧
    (fillCount s (!s.writeIsBuf1) = 0 →
        (onPDMdata s data).writeIsBuf1 = !s.writeIsBuf1 ∧
        fillCount (onPDMdata s data) s.writeIsBuf1 = fft_size ∧
        fillCount (onPDMdata s data) (!s.writeIsBuf1) = 0) := by
  have hfull : fillCount (pdmRead s data) s.writeIsBuf1 = fft_size := by
    rw [pdmRead_write_fill]; exact hcomplete
  have hother : fillCount (pdmRead s data) (!s.writeIsBuf1) =
      fillCount s (!s.writeIsBuf1) := by
    rw [fillCount, pdmRead_other_buf]; rfl
  have hw := pdmRead_writeIsBuf1 s data
  constructor
  · intro hne
    have : onPDMdata s data = setBuf (pdmRead s data) s.writeIsBuf1 [] := by
      rw [onPDMdata, pdmSwitch, hw, hfull, hother]
      simp [hne]
    refine this ▸ ⟨?_, ?_, ?_⟩
    · rw [writeIsBuf1_setBuf, hw]
    · rw [fillCount, bufOf_setBuf_self]; rfl
    · rw [bufOf_setBuf_not, pdmRead_other_buf]
  · intro hzero
    have : onPDMdata s data =
        { pdmRead s data with writeIsBuf1 := !s.writeIsBuf1 } := by
      rw [onPDMdata, pdmSwitch, hw, hfull, hother]
      simp [hzero]
    refine this ▸ ⟨rfl, ?_, ?_⟩
    · rw [← hfull]; rfl
    · rw [← hzero, ← hother]; rfl

/-- Witness for C1 at a concrete state in each branch's hypothesis shape:
the write buffer one short of full, the other buffer still full (overrun). -/
theorem C1_overrun_discard_else_swap_witness :
    let s : ExchangeState :=
      ⟨List.replicate 1023 0, List.replicate 1024 0, true, true⟩
    let data : List Int := [9]
    (fillCount s (!s.writeIsBuf1) ≠ 0 →
        (onPDMdata s data).writeIsBuf1 = s.writeIsBuf1 ∧
        fillCount (onPDMdata s data) s.writeIsBuf1 = 0 ∧
        bufOf (onPDMdata s data) (!s.writeIsBuf1) = bufOf s (!s.writeIsBuf1)) ∧
    (fillCount s (!s.writeIsBuf1) = 0 →
        (onPDMdata s data).writeIsBuf1 = !s.writeIsBuf1 ∧
        fillCount (onPDMdata s data) s.writeIsBuf1 = fft_size ∧
        fillCount (onPDMdata s data) (!s.writeIsBuf1) = 0) :=
  C1_overrun_discard_else_swap
    ⟨List.replicate 1023 0, List.replicate 1024 0, true, true⟩ [9]
    (by simp [fillCount, bufOf, fft_size])

theorem ExchangeInv_init : ExchangeInv init := by
  constructor <;> simp [init, fillCount, bufOf, fft_size]

theorem fillCount_withWrite (t : ExchangeState) (b x : Bool) :
    fillCount { t with writeIsBuf1 := b } x = fillCount t x := rfl

theorem fillCount_withRead (t : ExchangeState) (b x : Bool) :
    fillCount { t with readIsBuf1 := b } x = fillCount t x := rfl

theorem fillCount_pdmRead_other (s : ExchangeState) (data : List Int) :
    fillCount (pdmRead s data) (!s.writeIsBuf1) = fillCount s (!s.writeIsBuf1) := by
  rw [fillCount, pdmRead_other_buf]; rfl

theorem ExchangeInv_pdmSwitch (t : ExchangeState)
    (hle : fillCount t t.writeIsBuf1 ≤ fft_size)
    (ho : fillCount t (!t.writeIsBuf1) = 0 ∨ fillCount t (!t.writeIsBuf1) = fft_size) :
    ExchangeInv (pdmSwitch t) := by
  by_cases hfull : fillCount t t.writeIsBuf1 = fft_size
  · by_cases hzero : fillCount t (!t.writeIsBuf1) = 0
    · rw [pdmSwitch, if_pos hfull, if_neg (by simp [hzero])]
      constructor
      · show fillCount { t with writeIsBuf1 := !t.writeIsBuf1 } (!t.writeIsBuf1) < fft_size
        rw [fillCount_withWrite, hzero]
        simp [fft_size]
      · show fillCount { t with writeIsBuf1 := !t.writeIsBuf1 } (!(!t.writeIsBuf1)) = 0 ∨
            fillCount { t with writeIsBuf1 := !t.writeIsBuf1 } (!(!t.writeIsBuf1)) = fft_size
        rw [Bool.not_not, fillCount_withWrite]
        exact Or.inr hfull
    · rw [pdmSwitch, if_pos hfull, if_pos hzero]
      constructor
      · show fillCount (setBuf t t.writeIsBuf1 [])
            ((setBuf t t.writeIsBuf1 []).writeIsBuf1) < fft_size
        rw [writeIsBuf1_setBuf, fillCount, bufOf_setBuf_self]
        simp [fft_size]
      · show fillCount (setBuf t t.writeIsBuf1 [])
            (!(setBuf t t.writeIsBuf1 []).writeIsBuf1) = 0 ∨
          fillCount (setBuf t t.writeIsBuf1 [])
            (!(setBuf t t.writeIsBuf1 []).writeIsBuf1) = fft_size
        rw [writeIsBuf1_setBuf, fillCount, bufOf_setBuf_not]
        exact ho
  · rw [pdmSwitch, if_neg hfull]
    exact ⟨Nat.lt_of_le_of_ne hle hfull, ho⟩

theorem ExchangeInv_onPDMdata (s : ExchangeState) (data : List Int)
    (h : ExchangeInv s) : ExchangeInv (onPDMdata s data) := by
  obtain ⟨hw, ho⟩ := h
  rw [onPDMdata]
  apply ExchangeInv_pdmSwitch
  · rw [pdmRead_writeIsBuf1, pdmRead_write_fill]
    omega
  · rw [pdmRead_writeIsBuf1, fillCount_pdmRead_other]
    exact ho

theorem ExchangeInv_loopState (s : ExchangeState)
    (h : ExchangeInv s) : ExchangeInv (loopState s) := by
  obtain ⟨hw, ho⟩ := h
  rw [loopState]
  by_cases hr : (bufOf s s.readIsBuf1).length ≠ fft_size
  · rw [if_pos hr]; exact ⟨hw, ho⟩
  · rw [if_neg hr]
    push_neg at hr
    have hne : s.readIsBuf1 ≠ s.writeIsBuf1 := by
      intro heq
      rw [heq] at hr
      exact absurd hr (Nat.ne_of_lt hw)
    have hrw : s.readIsBuf1 = !s.writeIsBuf1 := by
      cases hsr : s.readIsBuf1 <;> cases hsw : s.writeIsBuf1 <;> simp_all
    constructor
    · show fillCount (setBuf s s.readIsBuf1 [])
          ((setBuf s s.readIsBuf1 []).writeIsBuf1) < fft_size
      rw [writeIsBuf1_setBuf,
        show s.writeIsBuf1 = !s.readIsBuf1 from by rw [hrw, Bool.not_not],
        fillCount, bufOf_setBuf_not, hrw, Bool.not_not]
      exact hw
    · show fillCount (setBuf s s.readIsBuf1 [])
          (!(setBuf s s.readIsBuf1 []).writeIsBuf1) = 0 ∨
        fillCount (setBuf s s.readIsBuf1 [])
          (!(setBuf s s.readIsBuf1 []).writeIsBuf1) = fft_size
      left
      rw [writeIsBuf1_setBuf, ← hrw, fillCount, bufOf_setBuf_self]
      rfl

theorem ExchangeInv_run (s : ExchangeState) (steps : List XStep)
    (h : ExchangeInv s) : ExchangeInv (run s steps) := by
  induction steps generalizing s with
  | nil => exact h
  | cons st rest ih =>
    cases st with
    | isr d => exact ih _ (ExchangeInv_onPDMdata s d h)
    | poll => exact ih _ (ExchangeInv_loopState s h)

/-- C2: in every state reachable from the initial state by any interleaving
of ISR invocations and consumer loop polls, at most one of the two buffers
has a full fill count; the two buffers are never simultaneously full. -/
theorem C2_never_both_full (steps : List XStep) :
    ¬ ((run init steps).buf1.length = fft_size ∧
       (run init steps).buf2.length = fft_size) := by
  rintro ⟨h1, h2⟩
  have hinv := ExchangeInv_run init steps ExchangeInv_init
  obtain ⟨hw, _⟩ := hinv
  cases hb : (run init steps).writeIsBuf1 <;>
    rw [fillCount, bufOf, hb] at hw <;> simp at hw <;> omega

theorem onPDMdata_fill_step (acc d : List Int)
    (hle : acc.length + d.length ≤ fft_size) :
    onPDMdata ⟨acc, [], true, true⟩ d =
      if acc.length + d.length = fft_size then ⟨acc ++ d, [], false, true⟩
      else ⟨acc ++ d, [], true, true⟩ := by
  have htake : min (fft_size - acc.length) d.length = d.length := by omega
  have hread : pdmRead ⟨acc, [], true, true⟩ d = ⟨acc ++ d, [], true, true⟩ := by
    simp [pdmRead, bufOf, setBuf, htake]
  rw [onPDMdata, hread]
  by_cases heq : acc.length + d.length = fft_size
  · rw [if_pos heq]
    simp [pdmSwitch, fillCount, bufOf, setBuf, heq]
  · rw [if_neg heq]
    simp only [pdmSwitch, fillCount, bufOf, setBuf]
    rw [if_neg (by simpa using heq)]

theorem run_isr_empty (datas : List (List Int)) (b1 : List Int)
    (hz : (datas.map List.length).sum = 0) :
    run ⟨b1, [], false, true⟩ (datas.map XStep.isr) = ⟨b1, [], false, true⟩ := by
  induction datas with
  | nil => rfl
  | cons d rest ih =>
    have hd : d = [] := by
      rw [List.map_cons, List.sum_cons] at hz
      exact List.eq_nil_of_length_eq_zero (by omega)
    have hz' : (rest.map List.length).sum = 0 := by
      rw [List.map_cons, List.sum_cons] at hz
      omega
    have hstep : onPDMdata ⟨b1, [], false, true⟩ [] = ⟨b1, [], false, true⟩ := by
      simp [onPDMdata, pdmRead, pdmSwitch, bufOf, setBuf, fillCount, fft_size]
    rw [hd, List.map_cons, run, List.foldl_cons,
      show applyStep ⟨b1, [], false, true⟩ (XStep.isr []) =
        onPDMdata ⟨b1, [], false, true⟩ [] from rfl, hstep]
    exact ih hz'

theorem run_isr_fill (datas : List (List Int)) (acc : List Int)
    (hlt : acc.length < fft_size)
    (hsum : acc.length + (datas.map List.length).sum = fft_size) :
    run ⟨acc, [], true, true⟩ (datas.map XStep.isr) =
      ⟨acc ++ datas.flatten, [], false, true⟩ := by
  induction datas generalizing acc with
  | nil =>
    rw [List.map_nil, List.sum_nil] at hsum
    omega
  | cons d rest ih =>
    rw [List.map_cons, List.sum_cons] at hsum
    have hle : acc.length + d.length ≤ fft_size := by omega
    rw [List.map_cons, run, List.foldl_cons,
      show applyStep ⟨acc, [], true, true⟩ (XStep.isr d) =
        onPDMdata ⟨acc, [], true, true⟩ d from rfl,
      onPDMdata_fill_step acc d hle]
    by_cases heq : acc.length + d.length = fft_size
    · rw [if_pos heq]
      have hz : (rest.map List.length).sum = 0 := by omega
      have hrestnil : rest.flatten = [] := by
        have : rest.flatten.length = 0 := by rw [List.length_flatten]; exact hz
        exact List.eq_nil_of_length_eq_zero this
      rw [show List.foldl applyStep (⟨acc ++ d, [], false, true⟩ : ExchangeState)
            (rest.map XStep.isr) =
          run ⟨acc ++ d, [], false, true⟩ (rest.map XStep.isr) from rfl,
        run_isr_empty rest (acc ++ d) hz, List.flatten_cons, hrestnil,
        List.append_nil]
    · rw [if_neg heq]
      rw [show List.foldl applyStep (⟨acc ++ d, [], true, true⟩ : ExchangeState)
            (rest.map XStep.isr) =
          run ⟨acc ++ d, [], true, true⟩ (rest.map XStep.isr) from rfl,
        ih (acc ++ d) (by rw [List.length_append]; omega)
          (by rw [List.length_append]; omega),
        List.flatten_cons, List.append_assoc]

/-- C3: for every sequence of ISR invocations whose cumulative sample count
is exactly one block (so the block fills without overrun before the consumer
drains it), the consumer's next poll observes exactly the concatenation of
the delivered sample runs, in order, with no duplication and no loss. -/
theorem C3_consumer_observes_appended (datas : List (List Int))
    (hsum : (datas.map List.length).sum = fft_size) :
    loopObs (run init (datas.map XStep.isr)) = some datas.flatten := by
  have h := run_isr_fill datas []
    (by simp [fft_size]) (by simpa using hsum)
  rw [show init = (⟨[], [], true, true⟩ : ExchangeState) from rfl, h]
  have hlen : datas.flatten.length = fft_size := by
    rw [List.length_flatten]; exact hsum
  simp [loopObs, bufOf, hlen]

/-- Witness for C3: a single ISR invocation delivering a full block of
zeros; the consumer observes exactly that block. -/
theorem C3_consumer_observes_appended_witness :
    loopObs (run init (([List.replicate 1024 (0 : Int)]).map XStep.isr)) =
      some ([List.replicate 1024 (0 : Int)].flatten) :=
  C3_consumer_observes_appended [List.replicate 1024 (0 : Int)]
    (by simp [fft_size])

theorem aggregate_getD (spectrum : List Int) (counts : List Nat)
    (offset i : Nat) (h : i < counts.length) :
    (aggregate spectrum counts offset).getD i 0 =
      bandEnergy spectrum (offset + (counts.take i).sum) (counts.getD i 0) := by
  induction counts generalizing offset i with
  | nil => simp at h
  | cons c rest ih =>
    cases i with
    | zero => simp [aggregate]
    | succ n =>
      have hn : n < rest.length := by simpa using h
      simp only [aggregate, List.getD_cons_succ, List.take_succ_cons,
        List.sum_cons]
      rw [ih (offset + c) n hn]
      congr 1
      omega

theorem sum_take_le_sum_take (l : List Nat) (i j : Nat) (h : i ≤ j) :
    (l.take i).sum ≤ (l.take j).sum := by
  induction l generalizing i j with
  | nil => simp
  | cons a t ih =>
    cases i with
    | zero => simp
    | succ i' =>
      cases j with
      | zero => omega
      | succ j' =>
        simp only [List.take_succ_cons, List.sum_cons]
        exact Nat.add_le_add_left (ih i' j' (Nat.le_of_succ_le_succ h)) a

theorem sum_take_succ_getD (l : List Nat) (i : Nat) (h : i < l.length) :
    (l.take (i + 1)).sum = (l.take i).sum + l.getD i 0 := by
  induction l generalizing i with
  | nil => simp at h
  | cons a t ih =>
    cases i with
    | zero => simp
    | succ n =>
      have hn : n < t.length := by simpa using h
      simp only [List.take_succ_cons, List.sum_cons, List.getD_cons_succ]
      rw [ih n hn]
      omega

/-- C4 counterexample: the `frequency_bins_count` table sums to 455, not to
`fft_size / 2 - 1 = 511` as the claim states. -/
theorem C4_counterexample_sum_not_511 :
    frequency_bins_count.sum = 455 ∧ fft_size / 2 - 1 = 511 ∧
    frequency_bins_count.sum ≠ fft_size / 2 - 1 := by
  refine ⟨by decide, by decide, by decide⟩

/-- C4 (amended): the table has one entry per band and sums to 455 (which
stays within the `fft_size / 2` usable transform outputs but does not reach
511); the aggregation loop assigns band `i` the contiguous slice of
`frequency_bins_count[i]` bins starting at bin `1 + sum of the preceding
spans` (so slices start at bin 1, are order-preserving and pairwise
disjoint: each slice ends no later than any later slice begins). -/
theorem C4_band_slices (spectrum : List Int) (i j : Nat)
    (hij : i < j) :
    frequency_bins_count.length = NUMPIXELS ∧
    frequency_bins_count.sum = 455 ∧
    1 + frequency_bins_count.sum ≤ fft_size / 2 ∧
    (i < NUMPIXELS →
      (pixel_values spectrum).getD i 0 =
        bandEnergy spectrum (1 + (frequency_bins_count.take i).sum)
          (frequency_bins_count.getD i 0)) ∧
    1 + (frequency_bins_count.take i).sum + frequency_bins_count.getD i 0 ≤
      1 + (frequency_bins_count.take j).sum := by
  refine ⟨by decide, by decide, by decide, ?_, ?_⟩
  · intro hi
    have hi' : i < frequency_bins_count.length := by
      rw [show frequency_bins_count.length = NUMPIXELS from by decide]
      exact hi
    exact aggregate_getD spectrum frequency_bins_count 1 i hi'
  · by_cases hi : i < frequency_bins_count.length
    · have h1 := sum_take_succ_getD frequency_bins_count i hi
      have h2 := sum_take_le_sum_take frequency_bins_count (i + 1) j hij
      omega
    · push_neg at hi
      have hd : frequency_bins_count.getD i 0 = 0 :=
        List.getD_eq_default _ _ hi
      have h2 := sum_take_le_sum_take frequency_bins_count i j (le_of_lt hij)
      omega

/-- Witness for C4 at concrete band indices 0 < 59 and an arbitrary concrete
spectrum. -/
theorem C4_band_slices_witness :
    frequency_bins_count.length = NUMPIXELS ∧
    frequency_bins_count.sum = 455 ∧
    1 + frequency_bins_count.sum ≤ fft_size / 2 ∧
    (0 < NUMPIXELS →
      (pixel_values ([7, 8, 9] : List Int)).getD 0 0 =
        bandEnergy [7, 8, 9] (1 + (frequency_bins_count.take 0).sum)
          (frequency_bins_count.getD 0 0)) ∧
    1 + (frequency_bins_count.take 0).sum + frequency_bins_count.getD 0 0 ≤
      1 + (frequency_bins_count.take 59).sum :=
  C4_band_slices [7, 8, 9] 0 59 (by decide)

theorem tmod_neg_left (a b : Int) : Int.tmod (-a) b = -(Int.tmod a b) := by
  rw [Int.tmod_def, Int.tmod_def, Int.neg_tdiv]
  ring

theorem tmod_1024_bounds (S : Int) :
    -1024 < Int.tmod S 1024 ∧ Int.tmod S 1024 < 1024 := by
  rcases le_or_lt 0 S with h | h
  · have h1 := Int.tmod_nonneg 1024 h
    have h2 := Int.tmod_lt_of_pos S (show (0 : Int) < 1024 by norm_num)
    omega
  · have hS : 0 ≤ -S := by omega
    have h1 := Int.tmod_nonneg 1024 hS
    have h2 := Int.tmod_lt_of_pos (-S) (show (0 : Int) < 1024 by norm_num)
    have h3 : Int.tmod S 1024 = -(Int.tmod (-S) 1024) := by
      rw [← tmod_neg_left, neg_neg]
    omega

theorem wrap16_eq_self (x : Int) (h1 : -32768 ≤ x) (h2 : x ≤ 32767) :
    wrap16 x = x := by
  have h : Int.emod (x + 32768) 65536 = x + 32768 :=
    Int.emod_eq_of_lt (by omega) (by omega)
  rw [wrap16, h]
  omega

theorem sum_map_sub_const (l : List Int) (c : Int) :
    (l.map (fun v => v - c)).sum = l.sum - (l.length : Int) * c := by
  induction l with
  | nil => simp
  | cons a t ih =>
    simp only [List.map_cons, List.sum_cons, List.length_cons, ih]
    push_cast
    ring

theorem badBlock_sum : badBlock.sum = -33488897 := by
  rw [badBlock, List.sum_cons, List.sum_replicate, nsmul_eq_mul]
  norm_num

theorem badBlock_eval : RemoveDCBias badBlock =
    -65 :: List.replicate 1023 (-64) := by
  have hcast : ((fft_size : Nat) : Int) = 1024 := by norm_num [fft_size]
  have havg : Int.tdiv badBlock.sum (fft_size : Int) = -32704 := by
    rw [badBlock_sum, hcast]
    decide
  simp only [RemoveDCBias, havg]
  rw [badBlock, List.map_cons, List.map_replicate,
    show wrap16 (32767 - -32704) = -65 from by decide,
    show wrap16 (-32768 - -32704) = -64 from by decide]

/-- C5 counterexample: for the int16 block consisting of one sample 32767
and 1023 samples -32768, the in-place `short` store in `RemoveDCBias` wraps,
and the resulting block's sum is -65537, i.e. its mean is about -64, not
within 1 of zero. -/
theorem C5_counterexample_mean_wraps :
    (RemoveDCBias badBlock).sum = -65537 ∧
    ¬ (-(fft_size : Int) < (RemoveDCBias badBlock).sum) := by
  have hsum : (RemoveDCBias badBlock).sum = -65537 := by
    rw [badBlock_eval, List.sum_cons, List.sum_replicate, nsmul_eq_mul]
    norm_num
  refine ⟨hsum, ?_⟩
  rw [hsum]
  norm_num [fft_size]

/-- C5 (amended): for every block of `fft_size` int16 samples, the 32-bit
accumulator cannot overflow (the sum lies in `[-2^25, 2^25)`, inside the
int32 range), and *provided no per-sample subtraction `v - avg` leaves the
int16 range* (so the in-place `short` store does not wrap), the resulting
block's sum has absolute value below `fft_size`, i.e. the truncated mean of
the result is zero (|mean| < 1). -/
theorem C5_dc_bias_bounded_mean (data : List Int)
    (hlen : data.length = fft_size)
    (hrange : ∀ v ∈ data, -32768 ≤ v ∧ v ≤ 32767)
    (hnowrap : ∀ v ∈ data,
      -32768 ≤ v - Int.tdiv data.sum (fft_size : Int) ∧
      v - Int.tdiv data.sum (fft_size : Int) ≤ 32767) :
    -(2 ^ 25 : Int) ≤ data.sum ∧ data.sum < 2 ^ 25 ∧ (2 ^ 25 : Int) < 2 ^ 31 ∧
    -(fft_size : Int) < (RemoveDCBias data).sum ∧
    (RemoveDCBias data).sum < (fft_size : Int) := by
  have hcast : ((fft_size : Nat) : Int) = 1024 := by norm_num [fft_size]
  have hub : data.sum ≤ 1024 * 32767 := by
    have h := List.sum_le_card_nsmul data 32767 (fun x hx => (hrange x hx).2)
    rw [hlen, nsmul_eq_mul] at h
    calc data.sum ≤ ((fft_size : Nat) : Int) * 32767 := h
      _ = 1024 * 32767 := by rw [hcast]
  have hlb : -(1024 * 32768) ≤ data.sum := by
    have h := List.card_nsmul_le_sum data (-32768) (fun x hx => (hrange x hx).1)
    rw [hlen, nsmul_eq_mul] at h
    calc (-(1024 * 32768) : Int) = ((fft_size : Nat) : Int) * (-32768) := by
          rw [hcast]; ring
      _ ≤ data.sum := h
  have hnw : RemoveDCBias data =
      data.map (fun v => v - Int.tdiv data.sum (fft_size : Int)) := by
    simp only [RemoveDCBias]
    exact List.map_congr_left (fun v hv =>
      wrap16_eq_self _ (hnowrap v hv).1 (hnowrap v hv).2)
  have hsum : (RemoveDCBias data).sum = Int.tmod data.sum 1024 := by
    rw [hnw, sum_map_sub_const, hlen, hcast, Int.tmod_def]
  have hbnd := tmod_1024_bounds data.sum
  refine ⟨by omega, by omega, by norm_num, ?_, ?_⟩
  · rw [hsum, hcast]; omega
  · rw [hsum, hcast]; omega

/-- Witness for C5 at the constant block of 1024 samples of value 5. -/
theorem C5_dc_bias_bounded_mean_witness :
    -(2 ^ 25 : Int) ≤ (List.replicate 1024 (5 : Int)).sum ∧
    (List.replicate 1024 (5 : Int)).sum < 2 ^ 25 ∧ (2 ^ 25 : Int) < 2 ^ 31 ∧
    -(fft_size : Int) < (RemoveDCBias (List.replicate 1024 (5 : Int))).sum ∧
    (RemoveDCBias (List.replicate 1024 (5 : Int))).sum < (fft_size : Int) := by
  have hs : (List.replicate 1024 (5 : Int)).sum = 5120 := by
    rw [List.sum_replicate, nsmul_eq_mul]; norm_num
  have hcast : ((fft_size : Nat) : Int) = 1024 := by norm_num [fft_size]
  exact C5_dc_bias_bounded_mean (List.replicate 1024 5)
    (by simp [fft_size])
    (fun v hv => by rw [List.eq_of_mem_replicate hv]; norm_num)
    (fun v hv => by
      rw [List.eq_of_mem_replicate hv, hs, hcast]
      decide)

theorem min_auto_gain_pos : (0 : ℚ) < min_auto_gain := by
  norm_num [min_auto_gain]

theorem decay_factor_pos : (0 : ℚ) < decay_factor := by
  norm_num [decay_factor]

theorem decay_factor_le_one : decay_factor ≤ 1 := by
  norm_num [decay_factor]

theorem gainUpdate_ge_min (gain level : ℚ) (h : min_auto_gain ≤ gain) :
    min_auto_gain ≤ gainUpdate gain level := by
  rw [gainUpdate]
  split_ifs with hl
  · exact h.trans hl.le
  · exact le_max_left _ _

theorem gainIter_ge_min (levels : List ℚ) (gain : ℚ)
    (h : min_auto_gain ≤ gain) : min_auto_gain ≤ gainIter gain levels := by
  induction levels generalizing gain with
  | nil => exact h
  | cons l rest ih =>
    rw [gainIter, List.foldl_cons]
    exact ih _ (gainUpdate_ge_min gain l h)

theorem gainUpdate_pos (gain level : ℚ) (h : min_auto_gain ≤ gain) :
    0 < gainUpdate gain level :=
  lt_of_lt_of_le min_auto_gain_pos (gainUpdate_ge_min gain level h)

theorem normalized_attack_eq_one (gain level : ℚ) (hg : min_auto_gain ≤ gain)
    (h : level > gain) : normalized gain level = 1 := by
  rw [normalized, gainUpdate, if_pos h]
  exact div_self (ne_of_gt (lt_of_le_of_lt (min_auto_gain_pos.le.trans hg) h))

theorem normalized_decay_le (gain level : ℚ) (hg : min_auto_gain ≤ gain)
    (_hlev : 0 ≤ level) (h : ¬ level > gain) :
    normalized gain level ≤ 1 / decay_factor := by
  rw [normalized, gainUpdate, if_neg h]
  have hgain : 0 < gain := lt_of_lt_of_le min_auto_gain_pos hg
  have hmax : 0 < max min_auto_gain (gain * decay_factor) :=
    lt_of_lt_of_le (mul_pos hgain decay_factor_pos) (le_max_right _ _)
  rw [div_le_div_iff₀ hmax decay_factor_pos, one_mul]
  exact le_trans
    (mul_le_mul_of_nonneg_right (not_lt.mp h) decay_factor_pos.le)
    (le_max_right _ _)

theorem normalized_nonneg (gain level : ℚ) (hg : min_auto_gain ≤ gain)
    (hlev : 0 ≤ level) : 0 ≤ normalized gain level :=
  div_nonneg hlev (gainUpdate_pos gain level hg).le

theorem normalized_le_inv_decay (gain level : ℚ) (hg : min_auto_gain ≤ gain)
    (hlev : 0 ≤ level) : normalized gain level ≤ 1 / decay_factor := by
  by_cases h : level > gain
  · rw [normalized_attack_eq_one gain level hg h, le_div_iff₀ decay_factor_pos,
      one_mul]
    exact decay_factor_le_one
  · exact normalized_decay_le gain level hg hlev h

theorem gainTrace_tracks (g : ℚ) (levels : List ℚ)
    (h : List.Chain' (· < ·) (g :: levels)) : gainTrace g levels = levels := by
  induction levels generalizing g with
  | nil => rfl
  | cons l rest ih =>
    rw [List.chain'_cons] at h
    obtain ⟨hgl, hrest⟩ := h
    rw [gainTrace, show gainUpdate g l = l from by rw [gainUpdate, if_pos hgl],
      ih l hrest]

theorem gainIter_zeros (g : ℚ) (n : Nat) (hg : min_auto_gain ≤ g) :
    gainIter g (List.replicate n 0) =
      max min_auto_gain (g * decay_factor ^ n) := by
  induction n generalizing g with
  | zero =>
    rw [List.replicate_zero, gainIter, List.foldl_nil, pow_zero, mul_one]
    exact (max_eq_right hg).symm
  | succ n ih =>
    have h0 : gainUpdate g 0 = max min_auto_gain (g * decay_factor) := by
      rw [gainUpdate, if_neg]
      push_neg
      exact le_trans min_auto_gain_pos.le hg
    rw [List.replicate_succ, gainIter, List.foldl_cons, h0]
    rw [show List.foldl gainUpdate (max min_auto_gain (g * decay_factor))
          (List.replicate n 0) =
        gainIter (max min_auto_gain (g * decay_factor))
          (List.replicate n 0) from rfl,
      ih _ (le_max_left _ _)]
    rcases le_total min_auto_gain (g * decay_factor) with h | h
    · rw [max_eq_right h, pow_succ]
      ring_nf
    · rw [max_eq_left h]
      have hq : decay_factor ^ n ≤ 1 :=
        pow_le_one₀ decay_factor_pos.le decay_factor_le_one
      have h1 : min_auto_gain * decay_factor ^ n ≤ min_auto_gain :=
        mul_le_of_le_one_right min_auto_gain_pos.le hq
      have h2 : g * decay_factor ^ (n + 1) ≤ min_auto_gain := by
        calc g * decay_factor ^ (n + 1) = (g * decay_factor) * decay_factor ^ n := by
              ring
          _ ≤ min_auto_gain * decay_factor ^ n :=
              mul_le_mul_of_nonneg_right h (pow_nonneg decay_factor_pos.le n)
          _ ≤ min_auto_gain := h1
      rw [max_eq_left h1, max_eq_left h2]

/-- C6 counterexample: the single-frame raw-energy sequence [0.001] is
strictly increasing, but starting from the initialized gain it yields gain
0.005 (the floor), not 0.001: part (b) of the claim fails when the energies
do not exceed `min_auto_gain`. -/
theorem C6_counterexample_small_energies :
    List.Chain' (· < ·) [(1 : ℚ) / 1000] ∧
    gainTrace min_auto_gain [(1 : ℚ) / 1000] ≠ [(1 : ℚ) / 1000] := by
  constructor
  · simp
  · have h1 : gainUpdate min_auto_gain (1 / 1000) = 1 / 200 := by
      rw [gainUpdate, if_neg (by norm_num [min_auto_gain]),
        max_eq_left (by norm_num [min_auto_gain, decay_factor])]
      norm_num [min_auto_gain]
    rw [gainTrace, gainTrace, h1]
    intro hc
    norm_num at hc

/-- C6 (amended): (a) starting from the initialized value `min_auto_gain`,
the gain never drops below `min_auto_gain` after any number of frames;
(b) for a strictly increasing raw-energy sequence *whose first element
exceeds `min_auto_gain`* (the chain condition on `min_auto_gain :: levels`),
the gain after each frame equals that frame's raw energy exactly; (c) for
raw energy held at 0, from any gain `g ≥ min_auto_gain` the gain after `n`
frames is exactly `max min_auto_gain (g * 0.997 ^ n)`: geometric decay
clipped at the floor, never undershooting it. -/
theorem C6_auto_gain_props (levels : List ℚ) (g : ℚ) (n : Nat)
    (hg : min_auto_gain ≤ g) :
    min_auto_gain ≤ gainIter min_auto_gain levels ∧
    (List.Chain' (· < ·) (min_auto_gain :: levels) →
      gainTrace min_auto_gain levels = levels) ∧
    gainIter g (List.replicate n 0) =
      max min_auto_gain (g * decay_factor ^ n) :=
  ⟨gainIter_ge_min levels min_auto_gain le_rfl,
   fun h => gainTrace_tracks min_auto_gain levels h,
   gainIter_zeros g n hg⟩

/-- Witness for C6 at `levels = [1]`, `g = 1`, `n = 2`. -/
theorem C6_auto_gain_props_witness :
    min_auto_gain ≤ gainIter min_auto_gain [(1 : ℚ)] ∧
    (List.Chain' (· < ·) (min_auto_gain :: [(1 : ℚ)]) →
      gainTrace min_auto_gain [(1 : ℚ)] = [(1 : ℚ)]) ∧
    gainIter 1 (List.replicate 2 0) =
      max min_auto_gain ((1 : ℚ) * decay_factor ^ 2) :=
  C6_auto_gain_props [1] 1 2 (by norm_num [min_auto_gain])

theorem bandEnergy_scenario : bandEnergy [scenario_bin] 0 1 = 10 := by
  rw [bandEnergy,
    show List.range 1 = [0] from rfl, List.map_cons, List.map_nil,
    List.sum_cons, List.sum_nil]
  norm_num [binContrib, scenario_bin, raw_min_value]

theorem gainUpdate_attack_ten : gainUpdate min_auto_gain 10 = 10 := by
  rw [gainUpdate, if_pos (by norm_num [min_auto_gain])]

theorem gainUpdate_tie_ten : gainUpdate 10 10 = 997 / 100 := by
  rw [gainUpdate, if_neg (by norm_num),
    max_eq_right (by norm_num [min_auto_gain, decay_factor])]
  norm_num [decay_factor]

/-- C7 counterexample: in the claimed scenario (band with span 1, single bin
of value `raw_min_value + 10`, two identical frames) the gain after the
second frame is 9.97, not 10: an energy equal to the current gain falls into
the decay branch, and the decay branch does decay the gain. -/
theorem C7_counterexample_second_frame_decays :
    gainIter min_auto_gain
      [bandEnergy [scenario_bin] 0 1, bandEnergy [scenario_bin] 0 1] ≠ 10 := by
  rw [bandEnergy_scenario, gainIter, List.foldl_cons, List.foldl_cons,
    List.foldl_nil, gainUpdate_attack_ten, gainUpdate_tie_ten]
  norm_num

/-- C7 (amended): the band's raw energy is exactly 10 on both frames; on the
first frame the gain rises from `min_auto_gain` to 10 and the normalized
output is exactly 1; on the second frame the energy ties with the gain, the
tie falls into the decay branch (the attack test is strict `>`), so the gain
decays to 9.97 (= 10 * 0.997) and the normalized output becomes
10 / 9.97 = 1000/997. -/
theorem C7_scenario_two_frames :
    bandEnergy [scenario_bin] 0 1 = 10 ∧
    gainUpdate min_auto_gain 10 = 10 ∧
    normalized min_auto_gain 10 = 1 ∧
    gainIter min_auto_gain [10, 10] = 997 / 100 ∧
    normalized 10 10 = 1000 / 997 := by
  refine ⟨bandEnergy_scenario, gainUpdate_attack_ten, ?_, ?_, ?_⟩
  · rw [normalized, gainUpdate_attack_ten]
    norm_num
  · rw [gainIter, List.foldl_cons, List.foldl_cons, List.foldl_nil,
      gainUpdate_attack_ten, gainUpdate_tie_ten]
  · rw [normalized, gainUpdate_tie_ten]
    norm_num

/-- C8 counterexample: with the gain at 10 (reached by a raw energy of 10 in
the previous frame) and a current raw energy of 10, the gain is *not* raised
(the tie goes to the decay branch), yet the normalized output is
1000/997 > 1: the output exceeds 1 in a frame in which the gain was not
raised. -/
theorem C8_counterexample_exceeds_without_raise :
    ¬ ((10 : ℚ) > gainIter min_auto_gain [10]) ∧
    normalized (gainIter min_auto_gain [10]) 10 > 1 := by
  have h : gainIter min_auto_gain [10] = 10 := by
    rw [gainIter, List.foldl_cons, List.foldl_nil, gainUpdate_attack_ten]
  rw [h]
  constructor
  · norm_num
  · rw [normalized, gainUpdate_tie_ten]
    norm_num

/-- C8 (amended): for every gain reachable from the initialized value (any
raw-energy history) and every raw energy ≥ 0 of the current frame: in a
frame where the gain is raised (energy strictly above the previous gain) the
normalized output equals exactly 1 — it never exceeds 1; in a frame where
the gain is not raised (decay branch) the output is at most 1/0.997 and is
the only kind of frame in which it can exceed 1. -/
theorem C8_normalized_exceeds_only_in_decay (history : List ℚ) (level : ℚ)
    (hlev : 0 ≤ level) :
    (level > gainIter min_auto_gain history →
      normalized (gainIter min_auto_gain history) level = 1) ∧
    (¬ level > gainIter min_auto_gain history →
      normalized (gainIter min_auto_gain history) level ≤ 1 / decay_factor) :=
  have hg : min_auto_gain ≤ gainIter min_auto_gain history :=
    gainIter_ge_min history min_auto_gain le_rfl
  ⟨fun h => normalized_attack_eq_one _ _ hg h,
   fun h => normalized_decay_le _ _ hg hlev h⟩

/-- Witness for C8 at history `[]` and raw energy 3 (a raise frame). -/
theorem C8_normalized_exceeds_only_in_decay_witness :
    ((3 : ℚ) > gainIter min_auto_gain [] →
      normalized (gainIter min_auto_gain []) 3 = 1) ∧
    (¬ (3 : ℚ) > gainIter min_auto_gain [] →
      normalized (gainIter min_auto_gain []) 3 ≤ 1 / decay_factor) :=
  C8_normalized_exceeds_only_in_decay [] 3 (by norm_num)

theorem ratTrunc_eq_floor (q : ℚ) (h : 0 ≤ q) : ratTrunc q = ⌊q⌋ := by
  rw [ratTrunc, Int.tdiv_eq_ediv (Rat.num_nonneg.mpr h) (Int.ofNat_nonneg _)]
  exact Rat.floor_def.symm

theorem greenValue_bounds (n : ℚ) (h0 : 0 ≤ n) (h1 : n ≤ 1 / decay_factor) :
    0 ≤ greenValue n ∧ greenValue n ≤ 250 := by
  have hm0 : (0 : ℚ) ≤ n * 250 := by positivity
  have hm1 : n * 250 < 251 := by
    calc n * 250 ≤ (1 / decay_factor) * 250 :=
          mul_le_mul_of_nonneg_right h1 (by norm_num)
      _ < 251 := by norm_num [decay_factor]
  rw [greenValue, ratTrunc_eq_floor _ hm0]
  refine ⟨Int.floor_nonneg.mpr hm0, ?_⟩
  have := Int.floor_lt.mpr (show (n * 250 : ℚ) < ((251 : ℤ) : ℚ) by
    exact_mod_cast hm1)
  omega

/-- C10: for every gain reachable from the initialized value and every raw
energy ≥ 0, the normalized output lies in [0, 1/0.997]; it equals exactly 1
whenever the raw energy strictly exceeds the previous gain (raise frame);
and the green channel `int(normalized * 250)` lies in [0, 250], so it cannot
overflow the 8-bit color component. -/
theorem C10_green_channel_bounded (history : List ℚ) (level : ℚ)
    (hlev : 0 ≤ level) :
    0 ≤ normalized (gainIter min_auto_gain history) level ∧
    normalized (gainIter min_auto_gain history) level ≤ 1 / decay_factor ∧
    (level > gainIter min_auto_gain history →
      normalized (gainIter min_auto_gain history) level = 1) ∧
    0 ≤ greenValue (normalized (gainIter min_auto_gain history) level) ∧
    greenValue (normalized (gainIter min_auto_gain history) level) ≤ 250 := by
  have hg : min_auto_gain ≤ gainIter min_auto_gain history :=
    gainIter_ge_min history min_auto_gain le_rfl
  have h0 := normalized_nonneg _ level hg hlev
  have h1 := normalized_le_inv_decay _ level hg hlev
  have hgrn := greenValue_bounds _ h0 h1
  exact ⟨h0, h1, fun h => normalized_attack_eq_one _ _ hg h, hgrn.1, hgrn.2⟩

/-- Witness for C10 at history `[]` and raw energy 1/100. -/
theorem C10_green_channel_bounded_witness :
    0 ≤ normalized (gainIter min_auto_gain []) (1 / 100) ∧
    normalized (gainIter min_auto_gain []) (1 / 100) ≤ 1 / decay_factor ∧
    ((1 / 100 : ℚ) > gainIter min_auto_gain [] →
      normalized (gainIter min_auto_gain []) (1 / 100) = 1) ∧
    0 ≤ greenValue (normalized (gainIter min_auto_gain []) (1 / 100)) ∧
    greenValue (normalized (gainIter min_auto_gain []) (1 / 100)) ≤ 250 :=
  C10_green_channel_bounded [] (1 / 100) (by norm_num)

end BSRL
